import Mathlib

/-!
Shallow embedding of the fretflow music-theory core
(`src/utils/musicUtils.ts`, `src/utils/intervalUtils.ts`,
`src/utils/chordUtils.ts`) and proofs of the specified properties.

JavaScript conventions are made explicit: `Array.prototype.indexOf`
returning `-1` is modelled as `Option Nat`; functions returning
`null`/`undefined` return `Option`; array reads that can be out of
bounds are modelled with `Option`/default reads at the exact spot the
source guards them.
-/

namespace FretFlow

/-- The 12 canonical note names with sharp spelling (`NOTES` in musicUtils.ts),
C through B in chromatic order (written in chunks; the appends reduce to the
single 12-element literal). -/
def NOTES : List String :=
  ["C", "C#", "D"] ++ ["D#", "E", "F"] ++ ["F#", "G", "G#"] ++ ["A", "A#"] ++ ["B"]

/-- Standard tuning, low E to high E (`STANDARD_TUNING` in musicUtils.ts). -/
def STANDARD_TUNING : List String :=
  ["E", "A", "D", "G", "B", "E"]

/-- Model of `String.prototype.toUpperCase` as a per-character uppercase map
(every string the repository feeds it is ASCII).  Written directly over the
character data so that it reduces by structural recursion. -/
def toUpperString (s : String) : String :=
  ⟨s.data.map Char.toUpper⟩

/-- Model of `Array.prototype.indexOf` on a list of strings: the index of the
first occurrence, or `none` where JS returns `-1`. -/
def listIndexOf? (s : String) : List String → Option Nat
  | [] => none
  | x :: xs => if x == s then some 0 else (listIndexOf? s xs).map (· + 1)

/-- `NOTES.indexOf s`, with the `-1` miss modelled as `none`. -/
def noteIndexOf (s : String) : Option Nat :=
  listIndexOf? s NOTES

/-- `getNoteAtFret` from musicUtils.ts: note name at a fret of a string given
its open-string note; returns the empty string when the open note is not in
`NOTES` (the source logs an error and returns `''`). -/
def getNoteAtFret (openStringNote : String) (fretNumber : Nat) : String :=
  match noteIndexOf openStringNote with
  | none => ""
  | some startIndex => NOTES.getD ((startIndex + fretNumber) % NOTES.length) ""

/-- An interval catalog entry (`Interval` in intervalUtils.ts). -/
structure Interval where
  name : String
  shortName : String
  semitones : Nat
deriving DecidableEq, Repr

/-- The `INTERVALS` dictionary of intervalUtils.ts as a lookup by key. -/
def INTERVALS : String → Option Interval
  | "P1" => some ⟨"Perfect Unison", "P1", 0⟩
  | "m2" => some ⟨"Minor Second", "m2", 1⟩
  | "M2" => some ⟨"Major Second", "M2", 2⟩
  | "m3" => some ⟨"Minor Third", "m3", 3⟩
  | "M3" => some ⟨"Major Third", "M3", 4⟩
  | "P4" => some ⟨"Perfect Fourth", "P4", 5⟩
  | "TT" => some ⟨"Tritone", "TT", 6⟩
  | "P5" => some ⟨"Perfect Fifth", "P5", 7⟩
  | "m6" => some ⟨"Minor Sixth", "m6", 8⟩
  | "M6" => some ⟨"Major Sixth", "M6", 9⟩
  | "m7" => some ⟨"Minor Seventh", "m7", 10⟩
  | "M7" => some ⟨"Major Seventh", "M7", 11⟩
  | "P8" => some ⟨"Perfect Octave", "P8", 12⟩
  | _ => none

/-- The keys of `INTERVALS` in insertion order. -/
def INTERVAL_KEYS : List String :=
  ["P1", "m2", "M2", "m3", "M3", "P4", "TT", "P5", "m6", "M6", "m7", "M7", "P8"]

/-- `INTERVAL_LIST = Object.values(INTERVALS)`: the catalog entries in
insertion order. -/
def INTERVAL_LIST : List Interval :=
  INTERVAL_KEYS.filterMap INTERVALS

/-- `getNoteFromInterval` from intervalUtils.ts: `NOTES[(idx(root) + semitones) % 12]`,
`none` on an invalid (uppercased) root.  The computed index is always below
`NOTES.length`, so the in-range read is written with a default. -/
def getNoteFromInterval (rootNote : String) (interval : Interval) : Option String :=
  match noteIndexOf (toUpperString rootNote) with
  | none => none
  | some rootIndex =>
      some (NOTES.getD ((rootIndex + interval.semitones) % NOTES.length) "")

/-- `getIntervalBetweenNotes` from intervalUtils.ts: semitone distance
`(idx2 - idx1 + 12) % 12` (written with the addend first so the natural-number
subtraction never truncates), matched against the catalog in insertion order. -/
def getIntervalBetweenNotes (note1 note2 : String) : Option Interval :=
  match noteIndexOf (toUpperString note1), noteIndexOf (toUpperString note2) with
  | some index1, some index2 =>
      INTERVAL_LIST.find?
        (fun interval => interval.semitones == (index2 + NOTES.length - index1) % NOTES.length)
  | _, _ => none

/-- A chord quality (`ChordQuality` in chordUtils.ts): name, abbreviations,
and interval keys of the formula. -/
structure ChordQuality where
  name : String
  abbr : List String
  intervals : List String
deriving DecidableEq, Repr

namespace CHORD_QUALITIES

def major : ChordQuality := ⟨"Major Triad", ["", "maj", "M"], ["P1", "M3", "P5"]⟩

def minor : ChordQuality := ⟨"Minor Triad", ["m", "min", "-"], ["P1", "m3", "P5"]⟩

def diminished : ChordQuality := ⟨"Diminished Triad", ["dim", "°"], ["P1", "m3", "TT"]⟩

def augmented : ChordQuality := ⟨"Augmented Triad", ["aug", "+"], ["P1", "M3", "m6"]⟩

def major7 : ChordQuality := ⟨"Major Seventh", ["maj7", "M7", "Δ"], ["P1", "M3", "P5", "M7"]⟩

def minor7 : ChordQuality := ⟨"Minor Seventh", ["m7", "min7", "-7"], ["P1", "m3", "P5", "m7"]⟩

def dominant7 : ChordQuality := ⟨"Dominant Seventh", ["7", "dom7"], ["P1", "M3", "P5", "m7"]⟩

def minor7flat5 : ChordQuality := ⟨"Minor Seventh Flat Five", ["m7b5", "ø", "ø7"], ["P1", "m3", "TT", "m7"]⟩

def diminished7 : ChordQuality := ⟨"Diminished Seventh", ["dim7", "°7"], ["P1", "m3", "TT", "M6"]⟩

def sus4 : ChordQuality := ⟨"Suspended Fourth", ["sus4", "sus"], ["P1", "P4", "P5"]⟩

def sus2 : ChordQuality := ⟨"Suspended Second", ["sus2"], ["P1", "M2", "P5"]⟩

end CHORD_QUALITIES

/-- `CHORD_QUALITY_LIST = Object.values(CHORD_QUALITIES)` in insertion order. -/
def CHORD_QUALITY_LIST : List ChordQuality :=
  [CHORD_QUALITIES.major, CHORD_QUALITIES.minor, CHORD_QUALITIES.diminished,
   CHORD_QUALITIES.augmented, CHORD_QUALITIES.major7, CHORD_QUALITIES.minor7,
   CHORD_QUALITIES.dominant7, CHORD_QUALITIES.minor7flat5, CHORD_QUALITIES.diminished7,
   CHORD_QUALITIES.sus4, CHORD_QUALITIES.sus2]

/-- A chord instance (`Chord` in chordUtils.ts). -/
structure Chord where
  rootNote : String
  quality : ChordQuality
  notes : List String
deriving DecidableEq, Repr

/-- The note-accumulating loop inside `getChord`: for each interval key look it
up in `INTERVALS` and apply `getNoteFromInterval`, failing (early return of
`null`) when either step fails. -/
def chordNotesLoop (upperCaseRoot : String) : List String → Option (List String)
  | [] => some []
  | intervalKey :: rest =>
      match INTERVALS intervalKey with
      | none => none
      | some interval =>
          match getNoteFromInterval upperCaseRoot interval with
          | none => none
          | some note => (chordNotesLoop upperCaseRoot rest).map (note :: ·)

/-- `getChord` from chordUtils.ts. -/
def getChord (rootNote : String) (quality : ChordQuality) : Option Chord :=
  let upperCaseRoot := toUpperString rootNote
  match noteIndexOf upperCaseRoot with
  | none => none
  | some _ =>
      match chordNotesLoop upperCaseRoot quality.intervals with
      | none => none
      | some chordNotes => some ⟨upperCaseRoot, quality, chordNotes⟩

/-- `TriadInversion` enum from chordUtils.ts. -/
inductive TriadInversion
  | ROOT
  | FIRST
  | SECOND
deriving DecidableEq, Repr

/-- `DropVoicingType` enum from chordUtils.ts. -/
inductive DropVoicingType
  | DROP_2
  | DROP_3
deriving DecidableEq, Repr

/-- The `VoicingType` union `TriadInversion | DropVoicingType | 'Root Position'`. -/
inductive VoicingType
  | inversion (i : TriadInversion)
  | drop (d : DropVoicingType)
  | rootPosition
deriving DecidableEq, Repr

/-- `getTriadInversionNotes` from chordUtils.ts: rejects non-3-note chords,
otherwise rotates `[root, third, fifth]`. -/
def getTriadInversionNotes (chord : Chord) (inversion : TriadInversion) : Option (List String) :=
  match chord.notes with
  | [root, third, fifth] =>
      match inversion with
      | TriadInversion.ROOT => some [root, third, fifth]
      | TriadInversion.FIRST => some [third, fifth, root]
      | TriadInversion.SECOND => some [fifth, root, third]
  | _ => none

/-- `getDrop2VoicingNotes` from chordUtils.ts. -/
def getDrop2VoicingNotes (chord : Chord) : Option (List String) :=
  match chord.notes with
  | [root, third, fifth, seventh] => some [fifth, root, third, seventh]
  | _ => none

/-- `getDrop3VoicingNotes` from chordUtils.ts. -/
def getDrop3VoicingNotes (chord : Chord) : Option (List String) :=
  match chord.notes with
  | [root, third, fifth, seventh] => some [third, root, fifth, seventh]
  | _ => none

/-- A fretboard position (`NotePosition` in chordUtils.ts): visual string
index (0 = high E, 5 = low E) and fret number. -/
structure NotePosition where
  string : Nat
  fret : Nat
deriving DecidableEq, Repr

/-- The `openStringMidi` table inside `getAbsolutePitch`: MIDI number of each
open string by visual index; `none` where JS reads `undefined`. -/
def openStringMidi : Nat → Option Int
  | 5 => some 40
  | 4 => some 45
  | 3 => some 50
  | 2 => some 55
  | 1 => some 59
  | 0 => some 64
  | _ => none

/-- `getAbsolutePitch` from chordUtils.ts: base MIDI of the open string plus
the fret, `-1` on an invalid visual index. -/
def getAbsolutePitch (stringIndexVisual : Nat) (fret : Nat) : Int :=
  match openStringMidi stringIndexVisual with
  | none => -1
  | some baseMidi => baseMidi + fret

/-- The open-string note the search reads as
`STANDARD_TUNING[(STANDARD_TUNING.length - 1) - visualIdx]`.  A visual index
above 5 makes the JS index negative, reading `undefined` (`none` here). -/
def openNoteAtVisual (visualIdx : Nat) : Option String :=
  if visualIdx < STANDARD_TUNING.length then
    STANDARD_TUNING.getD (STANDARD_TUNING.length - 1 - visualIdx) ""
  else none

/-- The note name `getNoteAtFret(STANDARD_TUNING[logicalIdx], fret)` computed
from a visual string index; `getNoteAtFret` applied to the `undefined` read of
an out-of-range index returns `''` in the source. -/
def noteAtVisual (visualIdx : Nat) (fret : Nat) : String :=
  match openNoteAtVisual visualIdx with
  | none => ""
  | some openNote => getNoteAtFret openNote fret

/-- The inner fret scan of `findVoicingOnStrings`: first fret in
`0..maxFret` on `stringIdx` whose note matches `targetNote` and whose
absolute pitch is strictly above `prevPitch`. -/
def findNoteOnString (targetNote : String) (stringIdx : Nat) (prevPitch : Int)
    (maxFret : Nat) : Option Nat :=
  (List.range (maxFret + 1)).find? (fun currentFret =>
    noteAtVisual stringIdx currentFret == targetNote
      && decide (prevPitch < getAbsolutePitch stringIdx currentFret))

/-- The completion loop of `findVoicingOnStrings` (step 4): place each
remaining target note on its string, requiring strictly ascending absolute
pitch, failing the whole attempt when any string cannot be placed. -/
def placeRest (targets : List String) (strings : List Nat) (prevPitch : Int)
    (maxFret : Nat) : Option (List NotePosition) :=
  match targets, strings with
  | [], [] => some []
  | currentTargetNote :: restTargets, currentStringIndex :: restStrings =>
      match findNoteOnString currentTargetNote currentStringIndex prevPitch maxFret with
      | none => none
      | some currentFret =>
          (placeRest restTargets restStrings
              (getAbsolutePitch currentStringIndex currentFret) maxFret).map
            (fun rest => ⟨currentStringIndex, currentFret⟩ :: rest)
  | _, _ => none

/-- One iteration of the outer starting-fret loop of `findVoicingOnStrings`:
accept `startFret` on the lowest string when its note matches the first
target, then complete the remaining strings. -/
def attemptAtFret (targets : List String) (sortedStrings : List Nat)
    (maxFret : Nat) (startFret : Nat) : Option (List NotePosition) :=
  match targets, sortedStrings with
  | lowestTargetNote :: restTargets, lowestStringIndex :: restStrings =>
      if noteAtVisual lowestStringIndex startFret == lowestTargetNote then
        (placeRest restTargets restStrings
            (getAbsolutePitch lowestStringIndex startFret) maxFret).map
          (fun rest => ⟨lowestStringIndex, startFret⟩ :: rest)
      else none
  | _, _ => none

/-- Step 1 of `findVoicingOnStrings`: the target note order and the expected
note count for a voicing type (3 for inversions, 4 for drop voicings, the
chord's own note count for root position). -/
def voicingTargets (chord : Chord) (voicingType : VoicingType) :
    Option (List String) × Nat :=
  match voicingType with
  | VoicingType.inversion inv => (getTriadInversionNotes chord inv, 3)
  | VoicingType.drop DropVoicingType.DROP_2 => (getDrop2VoicingNotes chord, 4)
  | VoicingType.drop DropVoicingType.DROP_3 => (getDrop3VoicingNotes chord, 4)
  | VoicingType.rootPosition => (some chord.notes, chord.notes.length)

/-- The expected note count `numNotesExpected` of `findVoicingOnStrings`. -/
def numNotesExpected (chord : Chord) (voicingType : VoicingType) : Nat :=
  (voicingTargets chord voicingType).2

/-- `findVoicingOnStrings` from chordUtils.ts.  The descending string-index
sort `[...stringSet].sort((a, b) => b - a)` and the final ascending
presentation sort (stable in JS) are modelled with insertion sort, which is
stable and agrees with any comparison sort on these keys. -/
def findVoicingOnStrings (chord : Chord) (voicingType : VoicingType)
    (stringSetVisualIndices : List Nat) (maxSearchFret : Nat) :
    Option (List NotePosition) :=
  match voicingTargets chord voicingType with
  | (none, _) => none
  | (some targetNotesInOrder, expectedCount) =>
      if targetNotesInOrder.length ≠ expectedCount then none
      else if stringSetVisualIndices.length ≠ expectedCount then none
      else
        let sortedStringSet := List.insertionSort (· ≥ ·) stringSetVisualIndices
        match (List.range (maxSearchFret + 1)).findSome?
            (fun startFret =>
              attemptAtFret targetNotesInOrder sortedStringSet maxSearchFret startFret) with
        | none => none
        | some potentialPositions =>
            some (List.insertionSort (fun a b => a.string ≤ b.string) potentialPositions)

/-- State-threaded version of `findVoicingOnStrings`: the caller's
`stringSetVisualIndices` array is mutable in the source language, so this
variant also returns its contents as they stand when the function returns.
The source only reads `stringSetVisualIndices.length` and copies the array
with a spread (`[...stringSetVisualIndices]`) before sorting, so the sort
mutates the copy and every path returns the argument unchanged. -/
def findVoicingOnStringsTrackingArg (chord : Chord) (voicingType : VoicingType)
    (stringSetVisualIndices : List Nat) (maxSearchFret : Nat) :
    Option (List NotePosition) × List Nat :=
  match voicingTargets chord voicingType with
  | (none, _) => (none, stringSetVisualIndices)
  | (some targetNotesInOrder, expectedCount) =>
      if targetNotesInOrder.length ≠ expectedCount then (none, stringSetVisualIndices)
      else if stringSetVisualIndices.length ≠ expectedCount then (none, stringSetVisualIndices)
      else
        let copy := stringSetVisualIndices
        let sortedStringSet := List.insertionSort (· ≥ ·) copy
        match (List.range (maxSearchFret + 1)).findSome?
            (fun startFret =>
              attemptAtFret targetNotesInOrder sortedStringSet maxSearchFret startFret) with
        | none => (none, stringSetVisualIndices)
        | some potentialPositions =>
            (some (List.insertionSort (fun a b => a.string ≤ b.string) potentialPositions),
             stringSetVisualIndices)

/-- Absolute pitch of a fretboard position. -/
def pitchOf (p : NotePosition) : Int :=
  getAbsolutePitch p.string p.fret

theorem findNoteOnString_spec {t : String} {s : Nat} {prev : Int} {maxFret f : Nat}
    (h : findNoteOnString t s prev maxFret = some f) :
    noteAtVisual s f = t ∧ prev < getAbsolutePitch s f ∧ f ≤ maxFret := by
  have hp := List.find?_some h
  have hm := List.mem_of_find?_eq_some h
  rw [List.mem_range] at hm
  rw [Bool.and_eq_true, beq_iff_eq, decide_eq_true_eq] at hp
  exact ⟨hp.1, hp.2, Nat.lt_succ_iff.mp hm⟩

theorem placeRest_spec (targets : List String) :
    ∀ (strings : List Nat) (prev : Int) (maxFret : Nat) (qs : List NotePosition),
      placeRest targets strings prev maxFret = some qs →
      qs.map (·.string) = strings ∧
      (∀ q ∈ qs, q.fret ≤ maxFret) ∧
      List.Forall₂ (fun t q => noteAtVisual q.string q.fret = t) targets qs ∧
      List.Chain (· < ·) prev (qs.map pitchOf) := by
  induction targets with
  | nil =>
      intro strings prev maxFret qs h
      cases strings with
      | nil =>
          simp only [placeRest, Option.some.injEq] at h
          subst h
          exact ⟨rfl, by simp, List.Forall₂.nil, List.Chain.nil⟩
      | cons s ss => simp [placeRest] at h
  | cons t ts ih =>
      intro strings prev maxFret qs h
      cases strings with
      | nil => simp [placeRest] at h
      | cons s ss =>
          simp only [placeRest] at h
          cases hf : findNoteOnString t s prev maxFret with
          | none => exact Option.noConfusion (hf ▸ h)
          | some f =>
              simp only [hf] at h
              cases hr : placeRest ts ss (getAbsolutePitch s f) maxFret with
              | none => simp only [hr, Option.map_none'] at h; exact Option.noConfusion h
              | some rest =>
                  simp only [hr, Option.map_some', Option.some.injEq] at h
                  subst h
                  obtain ⟨h1, h2, h3⟩ := findNoteOnString_spec hf
                  obtain ⟨ih1, ih2, ih3, ih4⟩ := ih ss _ maxFret rest hr
                  refine ⟨by simp [ih1], ?_, List.Forall₂.cons h1 ih3, List.Chain.cons h2 ih4⟩
                  intro q hq
                  rcases List.mem_cons.mp hq with rfl | hq
                  · exact h3
                  · exact ih2 q hq

theorem attemptAtFret_spec {targets : List String} {sortedStrings : List Nat}
    {maxFret startFret : Nat} {qs : List NotePosition}
    (h : attemptAtFret targets sortedStrings maxFret startFret = some qs)
    (hsf : startFret ≤ maxFret) :
    qs.map (·.string) = sortedStrings ∧
    (∀ q ∈ qs, q.fret ≤ maxFret) ∧
    List.Forall₂ (fun t q => noteAtVisual q.string q.fret = t) targets qs ∧
    (qs.map pitchOf).Chain' (· < ·) := by
  cases targets with
  | nil => simp [attemptAtFret] at h
  | cons t ts =>
      cases sortedStrings with
      | nil => simp [attemptAtFret] at h
      | cons s ss =>
          simp only [attemptAtFret] at h
          by_cases hn : noteAtVisual s startFret == t
          · rw [if_pos hn] at h
            cases hr : placeRest ts ss (getAbsolutePitch s startFret) maxFret with
            | none => simp only [hr, Option.map_none'] at h; exact Option.noConfusion h
            | some rest =>
                simp only [hr, Option.map_some', Option.some.injEq] at h
                subst h
                obtain ⟨ih1, ih2, ih3, ih4⟩ := placeRest_spec ts ss _ maxFret rest hr
                refine ⟨by simp [ih1], ?_, List.Forall₂.cons (beq_iff_eq.mp hn) ih3, ih4⟩
                intro q hq
                rcases List.mem_cons.mp hq with rfl | hq
                · exact hsf
                · exact ih2 q hq
          · rw [if_neg hn] at h
            simp at h

/-- C1: whenever `findVoicingOnStrings` returns a position list on a string
set of visual indices in 0..5, the result is a valid voicing: its string
indices are exactly the supplied set (one position per string), every fret
lies within `0..maxFret`, the positions taken in the internally used order —
lowest-pitched string of the set first — carry exactly the voicing-order
target notes (via `getNoteAtFret` on each string's open note), and their
absolute pitches strictly increase in that order. -/
theorem findVoicing_valid (chord : Chord) (voicingType : VoicingType)
    (ss : List Nat) (maxFret : Nat) (ps : List NotePosition)
    (_hss : ∀ s ∈ ss, s < 6)
    (h : findVoicingOnStrings chord voicingType ss maxFret = some ps) :
    ∃ targets qs,
      (voicingTargets chord voicingType).1 = some targets ∧
      targets.length = numNotesExpected chord voicingType ∧
      ss.length = numNotesExpected chord voicingType ∧
      ps.Perm qs ∧
      qs.map (·.string) = List.insertionSort (· ≥ ·) ss ∧
      (ps.map (·.string)).Perm ss ∧
      (∀ p ∈ ps, p.fret ≤ maxFret) ∧
      List.Forall₂ (fun t q => noteAtVisual q.string q.fret = t) targets qs ∧
      (qs.map pitchOf).Chain' (· < ·) := by
  rcases hvt : voicingTargets chord voicingType with ⟨tgt, n⟩
  have hnum : numNotesExpected chord voicingType = n := by
    rw [numNotesExpected, hvt]
  unfold findVoicingOnStrings at h
  rw [hvt] at h
  cases tgt with
  | none => simp at h
  | some targets =>
      simp only at h
      split at h
      · simp at h
      · split at h
        · simp at h
        · cases hfs : (List.range (maxFret + 1)).findSome?
              (fun startFret =>
                attemptAtFret targets (List.insertionSort (· ≥ ·) ss) maxFret startFret) with
          | none => exact Option.noConfusion (hfs ▸ h)
          | some pp =>
              simp only [hfs, Option.some.injEq] at h
              obtain ⟨startFret, hsfmem, hatt⟩ := List.exists_of_findSome?_eq_some hfs
              rw [List.mem_range] at hsfmem
              obtain ⟨hmap, hfret, hforall, hchain⟩ :=
                attemptAtFret_spec hatt (Nat.lt_succ_iff.mp hsfmem)
              have hperm : ps.Perm pp := by
                rw [← h]
                exact List.perm_insertionSort _ pp
              refine ⟨targets, pp, rfl, ?_, ?_, hperm, hmap, ?_, ?_, hforall, hchain⟩
              · rw [hnum]; omega
              · rw [hnum]; omega
              · have h1 : (ps.map (·.string)).Perm (pp.map (·.string)) := hperm.map _
                rw [hmap] at h1
                exact h1.trans (List.perm_insertionSort _ ss)
              · intro p hp
                exact hfret p (hperm.mem_iff.mp hp)

/-- C1 witness: the A-minor root-position voicing on strings 3,4,5. -/
theorem findVoicing_valid_witness :
    (∀ s ∈ ([3, 4, 5] : List Nat), s < 6) ∧
    findVoicingOnStrings ⟨"A", CHORD_QUALITIES.minor, ["A", "C", "E"]⟩
        (VoicingType.inversion TriadInversion.ROOT) [3, 4, 5] 12 =
      some [⟨3, 2⟩, ⟨4, 3⟩, ⟨5, 5⟩] ∧
    (∃ targets qs,
      (voicingTargets ⟨"A", CHORD_QUALITIES.minor, ["A", "C", "E"]⟩
          (VoicingType.inversion TriadInversion.ROOT)).1 = some targets ∧
      targets.length = numNotesExpected ⟨"A", CHORD_QUALITIES.minor, ["A", "C", "E"]⟩
          (VoicingType.inversion TriadInversion.ROOT) ∧
      ([3, 4, 5] : List Nat).length =
        numNotesExpected ⟨"A", CHORD_QUALITIES.minor, ["A", "C", "E"]⟩
          (VoicingType.inversion TriadInversion.ROOT) ∧
      ([⟨3, 2⟩, ⟨4, 3⟩, ⟨5, 5⟩] : List NotePosition).Perm qs ∧
      qs.map (·.string) = List.insertionSort (· ≥ ·) [3, 4, 5] ∧
      (([⟨3, 2⟩, ⟨4, 3⟩, ⟨5, 5⟩] : List NotePosition).map (·.string)).Perm [3, 4, 5] ∧
      (∀ p ∈ ([⟨3, 2⟩, ⟨4, 3⟩, ⟨5, 5⟩] : List NotePosition), p.fret ≤ 12) ∧
      List.Forall₂ (fun t q => noteAtVisual q.string q.fret = t) targets qs ∧
      (qs.map pitchOf).Chain' (· < ·)) :=
  ⟨by decide, by decide,
   findVoicing_valid ⟨"A", CHORD_QUALITIES.minor, ["A", "C", "E"]⟩
     (VoicingType.inversion TriadInversion.ROOT) [3, 4, 5] 12
     [⟨3, 2⟩, ⟨4, 3⟩, ⟨5, 5⟩] (by decide) (by decide)⟩

theorem listIndexOf?_eq_none_iff (s : String) (l : List String) :
    listIndexOf? s l = none ↔ s ∉ l := by
  induction l with
  | nil => simp [listIndexOf?]
  | cons x xs ih =>
      by_cases hx : x = s
      · subst hx
        simp [listIndexOf?]
      · have hb : (x == s) = false := beq_eq_false_iff_ne.mpr hx
        simp [listIndexOf?, hb, Option.map_eq_none', ih, Ne.symm hx]

theorem mem_of_noteIndexOf_eq_some {s : String} {i : Nat}
    (h : noteIndexOf s = some i) : s ∈ NOTES := by
  by_contra hmem
  rw [noteIndexOf] at h
  rw [(listIndexOf?_eq_none_iff s NOTES).mpr hmem] at h
  exact Option.noConfusion h

theorem toUpperString_of_mem_NOTES : ∀ u ∈ NOTES, toUpperString u = u := by
  decide

/-- C3: on a chord whose notes list does not have length 3, every triad
inversion yields `none` from `getTriadInversionNotes`, and
`findVoicingOnStrings` with a triad-inversion voicing kind returns `none`
(not applicable), never a partial or coerced 3-note result. -/
theorem inversion_not_applicable (chord : Chord) (h : chord.notes.length ≠ 3) :
    (∀ inv, getTriadInversionNotes chord inv = none) ∧
    (∀ inv (ss : List Nat) (maxFret : Nat),
        findVoicingOnStrings chord (VoicingType.inversion inv) ss maxFret = none) := by
  have h1 : ∀ inv, getTriadInversionNotes chord inv = none := by
    intro inv
    obtain ⟨rn, q, notes⟩ := chord
    rcases notes with _ | ⟨a, _ | ⟨b, _ | ⟨c, _ | ⟨d, l⟩⟩⟩⟩
    · rfl
    · rfl
    · rfl
    · exact absurd rfl h
    · rfl
  refine ⟨h1, fun inv ss maxFret => ?_⟩
  have hvt : voicingTargets chord (VoicingType.inversion inv) = (none, 3) := by
    simp [voicingTargets, h1 inv]
  simp [findVoicingOnStrings, hvt]

/-- C3 witness: a dominant-seventh chord (4 notes) with inversion FIRST. -/
theorem inversion_not_applicable_witness :
    (⟨"G", CHORD_QUALITIES.dominant7, ["G", "B", "D", "F"]⟩ : Chord).notes.length ≠ 3 ∧
    getTriadInversionNotes ⟨"G", CHORD_QUALITIES.dominant7, ["G", "B", "D", "F"]⟩
        TriadInversion.FIRST = none ∧
    findVoicingOnStrings ⟨"G", CHORD_QUALITIES.dominant7, ["G", "B", "D", "F"]⟩
        (VoicingType.inversion TriadInversion.FIRST) [1, 2, 3] 12 = none :=
  ⟨by decide,
   (inversion_not_applicable _ (by decide)).1 TriadInversion.FIRST,
   (inversion_not_applicable _ (by decide)).2 TriadInversion.FIRST [1, 2, 3] 12⟩

/-- C4: on a four-note chord `[root, third, fifth, seventh]`, drop-2 reorders
to `[fifth, root, third, seventh]` and drop-3 to `[third, root, fifth,
seventh]`; both return `none` when the notes list does not have length 4. -/
theorem drop_voicing_spec :
    (∀ (chord : Chord) (r t f s : String), chord.notes = [r, t, f, s] →
        getDrop2VoicingNotes chord = some [f, r, t, s] ∧
        getDrop3VoicingNotes chord = some [t, r, f, s]) ∧
    (∀ chord : Chord, chord.notes.length ≠ 4 →
        getDrop2VoicingNotes chord = none ∧ getDrop3VoicingNotes chord = none) := by
  constructor
  · intro chord r t f s h
    exact ⟨by simp [getDrop2VoicingNotes, h], by simp [getDrop3VoicingNotes, h]⟩
  · intro chord h
    obtain ⟨rn, q, notes⟩ := chord
    rcases notes with _ | ⟨a, _ | ⟨b, _ | ⟨c, _ | ⟨d, _ | ⟨e, l⟩⟩⟩⟩⟩
    · exact ⟨rfl, rfl⟩
    · exact ⟨rfl, rfl⟩
    · exact ⟨rfl, rfl⟩
    · exact ⟨rfl, rfl⟩
    · exact absurd rfl h
    · exact ⟨rfl, rfl⟩

/-- C4 witness: drop voicings of G dominant-seventh, and rejection on the
three-note A-minor chord. -/
theorem drop_voicing_spec_witness :
    (getDrop2VoicingNotes ⟨"G", CHORD_QUALITIES.dominant7, ["G", "B", "D", "F"]⟩ =
        some ["D", "G", "B", "F"] ∧
      getDrop3VoicingNotes ⟨"G", CHORD_QUALITIES.dominant7, ["G", "B", "D", "F"]⟩ =
        some ["B", "G", "D", "F"]) ∧
    (getDrop2VoicingNotes ⟨"A", CHORD_QUALITIES.minor, ["A", "C", "E"]⟩ = none ∧
      getDrop3VoicingNotes ⟨"A", CHORD_QUALITIES.minor, ["A", "C", "E"]⟩ = none) :=
  ⟨drop_voicing_spec.1 _ "G" "B" "D" "F" rfl, drop_voicing_spec.2 _ (by decide)⟩

/-- C5: on a three-note chord, `getTriadInversionNotes` for ROOT/FIRST/SECOND
is the left rotation of the base notes by 0/1/2, and rotating the SECOND
order by one more position (a total rotation by 3) restores the ROOT order. -/
theorem triad_inversion_rotation (chord : Chord) (h : chord.notes.length = 3) :
    getTriadInversionNotes chord TriadInversion.ROOT = some (chord.notes.rotateLeft 0) ∧
    getTriadInversionNotes chord TriadInversion.FIRST = some (chord.notes.rotateLeft 1) ∧
    getTriadInversionNotes chord TriadInversion.SECOND = some (chord.notes.rotateLeft 2) ∧
    (chord.notes.rotateLeft 2).rotateLeft 1 = chord.notes.rotateLeft 3 ∧
    chord.notes.rotateLeft 3 = chord.notes := by
  obtain ⟨rn, q, notes⟩ := chord
  obtain ⟨a, b, c, rfl⟩ := List.length_eq_three.mp h
  refine ⟨rfl,
    by simp [getTriadInversionNotes, List.rotateLeft],
    by simp [getTriadInversionNotes, List.rotateLeft],
    by simp [List.rotateLeft],
    by simp [List.rotateLeft]⟩

/-- C5 witness: the A-minor triad. -/
theorem triad_inversion_rotation_witness :
    (⟨"A", CHORD_QUALITIES.minor, ["A", "C", "E"]⟩ : Chord).notes.length = 3 ∧
    getTriadInversionNotes ⟨"A", CHORD_QUALITIES.minor, ["A", "C", "E"]⟩
        TriadInversion.FIRST = some ["C", "E", "A"] ∧
    (["A", "C", "E"] : List String).rotateLeft 3 = ["A", "C", "E"] :=
  ⟨rfl,
   (triad_inversion_rotation ⟨"A", CHORD_QUALITIES.minor, ["A", "C", "E"]⟩ rfl).2.1,
   (triad_inversion_rotation ⟨"A", CHORD_QUALITIES.minor, ["A", "C", "E"]⟩ rfl).2.2.2.2⟩

/-- C6 counterexample: the catalog interval P8 (12 semitones) fails the
round trip — `getNoteFromInterval "C" P8` wraps to `"C"`, and
`getIntervalBetweenNotes "C" "C"` is P1, not P8. -/
theorem interval_roundTrip_cex :
    (⟨"Perfect Octave", "P8", 12⟩ : Interval) ∈ INTERVAL_LIST ∧
    "C" ∈ NOTES ∧
    (getNoteFromInterval "C" ⟨"Perfect Octave", "P8", 12⟩).bind
        (fun b => getIntervalBetweenNotes "C" b) =
      some ⟨"Perfect Unison", "P1", 0⟩ ∧
    (⟨"Perfect Unison", "P1", 0⟩ : Interval) ≠ ⟨"Perfect Octave", "P8", 12⟩ := by
  decide

/-- C6 (amended): for every catalog interval other than the octave (semitone
count 12) and every canonical root, `getIntervalBetweenNotes` applied to the
root and `getNoteFromInterval` of the root recovers the interval. -/
theorem interval_roundTrip :
    ∀ i ∈ INTERVAL_LIST, ∀ a ∈ NOTES, i.semitones ≠ 12 →
      (getNoteFromInterval a i).bind (fun b => getIntervalBetweenNotes a b) = some i := by
  decide

/-- C6 witness: the perfect fifth from A. -/
theorem interval_roundTrip_witness :
    (⟨"Perfect Fifth", "P5", 7⟩ : Interval) ∈ INTERVAL_LIST ∧ "A" ∈ NOTES ∧
    (7 : Nat) ≠ 12 ∧
    (getNoteFromInterval "A" ⟨"Perfect Fifth", "P5", 7⟩).bind
        (fun b => getIntervalBetweenNotes "A" b) =
      some ⟨"Perfect Fifth", "P5", 7⟩ :=
  ⟨by decide, by decide, by decide,
   interval_roundTrip _ (by decide) _ (by decide) (by decide)⟩

/-- C7: the A-minor chord (notes A, C, E), voicing ROOT, string set [3,4,5],
maxFret 12 yields exactly D-string fret 2 (E), A-string fret 3 (C), low-E
fret 5 (A), emitted sorted by visual string index ascending. -/
theorem voicing_A_minor_root :
    getChord "A" CHORD_QUALITIES.minor =
      some ⟨"A", CHORD_QUALITIES.minor, ["A", "C", "E"]⟩ ∧
    findVoicingOnStrings ⟨"A", CHORD_QUALITIES.minor, ["A", "C", "E"]⟩
        (VoicingType.inversion TriadInversion.ROOT) [3, 4, 5] 12 =
      some [⟨3, 2⟩, ⟨4, 3⟩, ⟨5, 5⟩] := by
  decide

/-- C8: the G dominant-seventh chord (notes G, B, D, F), voicing DROP_2,
string set [1,2,3,4], maxFret 12 yields a four-position result whose
position on the lowest-pitched string of the set (visual index 4) carries
pitch class D, the fifth of the chord, per the drop-2 reordering. -/
theorem voicing_G7_drop2 :
    getChord "G" CHORD_QUALITIES.dominant7 =
      some ⟨"G", CHORD_QUALITIES.dominant7, ["G", "B", "D", "F"]⟩ ∧
    getDrop2VoicingNotes ⟨"G", CHORD_QUALITIES.dominant7, ["G", "B", "D", "F"]⟩ =
      some ["D", "G", "B", "F"] ∧
    findVoicingOnStrings ⟨"G", CHORD_QUALITIES.dominant7, ["G", "B", "D", "F"]⟩
        (VoicingType.drop DropVoicingType.DROP_2) [1, 2, 3, 4] 12 =
      some [⟨1, 6⟩, ⟨2, 4⟩, ⟨3, 5⟩, ⟨4, 5⟩] ∧
    noteAtVisual 4 5 = "D" := by
  decide

/-- C2: when the supplied string set's length differs from the note count the
voicing kind expects (3 for triad inversions, 4 for drop voicings, the
chord's own note count for root position), `findVoicingOnStrings` returns
`none`, for every fret ceiling — no fret search takes place. -/
theorem findVoicing_length_mismatch (chord : Chord) (voicingType : VoicingType)
    (ss : List Nat) (maxFret : Nat)
    (h : ss.length ≠ numNotesExpected chord voicingType) :
    findVoicingOnStrings chord voicingType ss maxFret = none := by
  rw [numNotesExpected] at h
  rcases hvt : voicingTargets chord voicingType with ⟨tgt, n⟩
  rw [hvt] at h
  simp only at h
  cases tgt with
  | none => simp [findVoicingOnStrings, hvt]
  | some t =>
      by_cases ht : t.length ≠ n
      · simp [findVoicingOnStrings, hvt, ht]
      · simp [findVoicingOnStrings, hvt, ht, h]

/-- C2 witness: two strings supplied for a triad inversion. -/
theorem findVoicing_length_mismatch_witness :
    ([3, 4] : List Nat).length ≠
        numNotesExpected ⟨"A", CHORD_QUALITIES.minor, ["A", "C", "E"]⟩
          (VoicingType.inversion TriadInversion.ROOT) ∧
    findVoicingOnStrings ⟨"A", CHORD_QUALITIES.minor, ["A", "C", "E"]⟩
        (VoicingType.inversion TriadInversion.ROOT) [3, 4] 12 = none :=
  ⟨by decide, findVoicing_length_mismatch _ _ _ _ (by decide)⟩

/-- C10: `findVoicingOnStrings` leaves the caller's string-set array exactly
as supplied on every path (the source sorts a spread copy, never the
argument), and the tracked variant computes the same result. -/
theorem findVoicing_preserves_stringSet (chord : Chord) (voicingType : VoicingType)
    (ss : List Nat) (maxFret : Nat) :
    (findVoicingOnStringsTrackingArg chord voicingType ss maxFret).2 = ss ∧
    (findVoicingOnStringsTrackingArg chord voicingType ss maxFret).1 =
      findVoicingOnStrings chord voicingType ss maxFret := by
  rcases hvt : voicingTargets chord voicingType with ⟨tgt, n⟩
  cases tgt with
  | none => simp [findVoicingOnStringsTrackingArg, findVoicingOnStrings, hvt]
  | some t =>
      by_cases ht : t.length ≠ n
      · simp [findVoicingOnStringsTrackingArg, findVoicingOnStrings, hvt, ht]
      · by_cases hs : ss.length ≠ n
        · simp [findVoicingOnStringsTrackingArg, findVoicingOnStrings, hvt, ht, hs]
        · cases hfs : (List.range (maxFret + 1)).findSome?
              (fun startFret =>
                attemptAtFret t (List.insertionSort (· ≥ ·) ss) maxFret startFret) with
          | none =>
              simp [findVoicingOnStringsTrackingArg, findVoicingOnStrings, hvt, ht, hs, hfs]
          | some ps =>
              simp [findVoicingOnStringsTrackingArg, findVoicingOnStrings, hvt, ht, hs, hfs]

/-- C9: for any root string and any catalog quality, `getChord` fails exactly
when the uppercased root is not one of the 12 canonical note names, and a
returned chord carries the uppercased root, the quality, and the notes
`NOTES[(index(root) + semitones(intervals[i])) % 12]` in the formula's
order. -/
theorem getChord_spec (root : String) (quality : ChordQuality)
    (hq : quality ∈ CHORD_QUALITY_LIST) :
    (getChord root quality = none ↔ toUpperString root ∉ NOTES) ∧
    (∀ c, getChord root quality = some c →
      ∃ ridx, noteIndexOf (toUpperString root) = some ridx ∧
        c.rootNote = toUpperString root ∧
        c.quality = quality ∧
        (∀ key ∈ quality.intervals, (INTERVALS key).isSome = true) ∧
        c.notes = quality.intervals.map (fun key =>
          NOTES.getD ((ridx + ((INTERVALS key).getD ⟨"", "", 0⟩).semitones) % NOTES.length) "")) := by
  cases hni : noteIndexOf (toUpperString root) with
  | none =>
      have hmem : toUpperString root ∉ NOTES := (listIndexOf?_eq_none_iff _ NOTES).mp hni
      refine ⟨iff_of_true (by simp [getChord, hni]) hmem, fun c hc => ?_⟩
      rw [getChord] at hc
      simp only [hni] at hc
      exact Option.noConfusion hc
  | some ridx =>
      have hmem : toUpperString root ∈ NOTES := mem_of_noteIndexOf_eq_some hni
      have hup : toUpperString (toUpperString root) = toUpperString root :=
        toUpperString_of_mem_NOTES _ hmem
      have hgc : ∀ iv : Interval, getNoteFromInterval (toUpperString root) iv =
          some (NOTES.getD ((ridx + iv.semitones) % NOTES.length) "") := by
        intro iv
        rw [getNoteFromInterval, hup, hni]
      simp only [CHORD_QUALITY_LIST, List.mem_cons, List.not_mem_nil, or_false] at hq
      rcases hq with rfl | rfl | rfl | rfl | rfl | rfl | rfl | rfl | rfl | rfl | rfl <;>
        refine ⟨iff_of_false (by simp [getChord, hni, chordNotesLoop, INTERVALS, hgc,
            CHORD_QUALITIES.major, CHORD_QUALITIES.minor, CHORD_QUALITIES.diminished,
            CHORD_QUALITIES.augmented, CHORD_QUALITIES.major7, CHORD_QUALITIES.minor7,
            CHORD_QUALITIES.dominant7, CHORD_QUALITIES.minor7flat5,
            CHORD_QUALITIES.diminished7, CHORD_QUALITIES.sus4, CHORD_QUALITIES.sus2])
          (by simp [hmem]), fun c hc => ?_⟩ <;>
        · simp only [getChord, hni, chordNotesLoop, INTERVALS, hgc, Option.map_some',
            Option.some.injEq, CHORD_QUALITIES.major, CHORD_QUALITIES.minor,
            CHORD_QUALITIES.diminished, CHORD_QUALITIES.augmented, CHORD_QUALITIES.major7,
            CHORD_QUALITIES.minor7, CHORD_QUALITIES.dominant7, CHORD_QUALITIES.minor7flat5,
            CHORD_QUALITIES.diminished7, CHORD_QUALITIES.sus4, CHORD_QUALITIES.sus2] at hc
          subst hc
          exact ⟨ridx, rfl, rfl, rfl, by decide, rfl⟩

/-- C9 witness: the lowercase root "a" with the minor quality. -/
theorem getChord_spec_witness :
    CHORD_QUALITIES.minor ∈ CHORD_QUALITY_LIST ∧
    ((getChord "a" CHORD_QUALITIES.minor = none ↔ toUpperString "a" ∉ NOTES) ∧
      (∀ c, getChord "a" CHORD_QUALITIES.minor = some c →
        ∃ ridx, noteIndexOf (toUpperString "a") = some ridx ∧
          c.rootNote = toUpperString "a" ∧
          c.quality = CHORD_QUALITIES.minor ∧
          (∀ key ∈ CHORD_QUALITIES.minor.intervals, (INTERVALS key).isSome = true) ∧
          c.notes = CHORD_QUALITIES.minor.intervals.map (fun key =>
            NOTES.getD ((ridx + ((INTERVALS key).getD ⟨"", "", 0⟩).semitones) % NOTES.length) ""))) :=
  ⟨by decide, getChord_spec "a" CHORD_QUALITIES.minor (by decide)⟩

end FretFlow
